import Mathlib

/-!
Verification of the ff-merge flight-track merger (`ff_merge/main.py`).

The program operates on KML trees; we shallowly embed the fields the merge
engine actually touches.  A Python string is embedded as `List Char` (`PyStr`)
when character-level operations (`split`, `endswith`, `join`) matter, and as
`String` where the text is only moved around.  Each lxml query is embedded by
the list of logical values it returns, in document order:

* `Document/Placemark/gx:Track` elements become `PointGroup`s (a placemark
  holding a `gx:Track`), listed in document order in `Tree.groups`;
* `findall(... /when)` and `findall(... /gx:coord)` return the concatenation of
  the per-group `when` / `coord` children, i.e. `Tree.allWhens` /
  `Tree.allCoords`;
* each `gx:SimpleArrayData` element becomes a `Sad` (name plus value texts);
* the `flightTitle` `Data` value becomes `Tree.title`;
* the presence of the `SchemaData` element becomes `Tree.hasSchemaData`.

Timestamps are embedded as `Nat` (ISO instants parse to totally ordered
values); a `gx:coord` text "lon lat alt" is embedded as three `Int` components,
only the altitude of which the program inspects (`alt < 0`).

Fallible Python code (assert, `None` dereference, out-of-range indexing,
removing a node that is not a child) is embedded with `Except Err`; reaching
`Except.error` models the exception aborting the run with no output.
-/

namespace FF

/-- A Python string, embedded character by character. -/
abbrev PyStr := List Char

/-- The literal separator `" - "` used by `combine_flight_titles`. -/
def sepDash : PyStr := [' ', '-', ' ']

/-- Python `s.split(" - ")`: scan left to right, cutting at each
(non-overlapping, leftmost-first) occurrence of `" - "`; `acc` holds the
characters of the current piece in reverse. -/
def splitDashAux : List Char → List Char → List PyStr
  | acc, [] => [acc.reverse]
  | acc, ' ' :: '-' :: ' ' :: rest => acc.reverse :: splitDashAux [] rest
  | acc, c :: rest => splitDashAux (c :: acc) rest

/-- Python `title.split(" - ")`. -/
def splitDash (s : PyStr) : List PyStr := splitDashAux [] s

/-- Python `" - ".join(pieces)`. -/
def joinDash : List PyStr → PyStr
  | [] => []
  | [s] => s
  | s :: rest => s ++ sepDash ++ joinDash rest

/-- The `else` branch of the loop body of `combine_flight_titles`: split the
incoming title on `" - "`; if the accumulated title ends with the first piece,
join the accumulator with the remaining pieces on `" - "`, otherwise
concatenate the title directly. -/
def mergeTitleStep (curr title : PyStr) : PyStr :=
  let pieces := splitDash title
  if (pieces.headD []).isSuffixOf curr then joinDash (curr :: pieces.tail)
  else curr ++ title

/-- `combine_flight_titles` (main.py:104-115): fold over the titles, seeding
the accumulator with the first truthy (non-empty) title. -/
def combine_flight_titles (titles : List PyStr) : PyStr :=
  titles.foldl (fun curr title => if curr.isEmpty then title else mergeTitleStep curr title) []

/-- The Title Reconciler contract as the spec words it (§4.2): start with the
first non-empty title as the accumulator and fold the subsequent titles with
the overlap-aware merge step. -/
def specCombineTitles (titles : List PyStr) : PyStr :=
  match titles.dropWhile (fun t => t.isEmpty) with
  | [] => []
  | t :: ts => ts.foldl mergeTitleStep t

/-- A coordinate `"lon lat alt"`; the program only inspects the altitude. -/
structure Coord where
  lon : Int
  lat : Int
  alt : Int
deriving DecidableEq, Repr, Inhabited

/-- One `Placemark` containing a `gx:Track`: its `when` children (timestamps)
and `gx:coord` children, in document order. -/
structure PointGroup where
  whens : List Nat
  coords : List Coord
deriving DecidableEq, Repr, Inhabited

/-- One `gx:SimpleArrayData` element: its `name` attribute and the texts of
its `gx:value` children. -/
structure Sad where
  name : String
  values : List String
deriving DecidableEq, Repr, Inhabited

/-- The fields of one parsed KML an operation of the merge engine reads or
writes. -/
structure Tree where
  title : PyStr
  groups : List PointGroup
  sads : List Sad
  hasSchemaData : Bool
deriving DecidableEq, Repr, Inhabited

/-- All `when` texts of `findall("Document/Placemark/gx:Track/when")`, in
document order. -/
def Tree.allWhens (t : Tree) : List Nat :=
  (t.groups.map PointGroup.whens).flatten

/-- All coords of `findall("Document/Placemark/gx:Track/gx:coord")`, in
document order. -/
def Tree.allCoords (t : Tree) : List Coord :=
  (t.groups.map PointGroup.coords).flatten

/-- Errors; each constructor names the Python exception (or the spec's name
for the corresponding `assert`) that aborts the run. -/
inductive Err where
  | emptyInput
  | missingTrackGroup
  | missingSeries
  | seriesLengthMismatch
  | pointCountMismatch
  | noCoords
  | whenCoordMismatch
  | filterConsistency
  | attributeError
  | notAChild
  | indexError
deriving DecidableEq, Repr

instance {ε α : Type} [DecidableEq ε] [DecidableEq α] : DecidableEq (Except ε α) := fun x y =>
  match x, y with
  | Except.ok a, Except.ok b =>
    if h : a = b then isTrue (congrArg Except.ok h)
    else isFalse (fun hc => h (Except.ok.inj hc))
  | Except.error a, Except.error b =>
    if h : a = b then isTrue (congrArg Except.error h)
    else isFalse (fun hc => h (Except.error.inj hc))
  | Except.ok _, Except.error _ => isFalse (fun hc => Except.noConfusion hc)
  | Except.error _, Except.ok _ => isFalse (fun hc => Except.noConfusion hc)

/-- Python `enumerate`, with explicit start index. -/
def enumerate (n : Nat) : List α → List (Nat × α)
  | [] => []
  | a :: as => (n, a) :: enumerate (n + 1) as

/-- A Python `for` loop over `xs` that may raise, building a list. -/
def mapExcept (f : α → Except Err β) : List α → Except Err (List β)
  | [] => Except.ok []
  | a :: as =>
    match f a with
    | Except.error e => Except.error e
    | Except.ok b =>
      match mapExcept f as with
      | Except.error e => Except.error e
      | Except.ok bs => Except.ok (b :: bs)

/-- A Python `for` loop over `xs` that may raise, threading an accumulator. -/
def foldlExcept (f : β → α → Except Err β) : β → List α → Except Err β
  | b, [] => Except.ok b
  | b, a :: as =>
    match f b a with
    | Except.error e => Except.error e
    | Except.ok b' => foldlExcept f b' as

/-- `find_first_track_placemark` (main.py:61-65): the first placemark holding
a `gx:Track`, or `None`. -/
def find_first_track_placemark (t : Tree) : Option PointGroup :=
  t.groups.head?

/-- `find_sad` inside `merge_simplearraydata` (main.py:126-131): linear scan
for the `SimpleArrayData` with the given `name` attribute. -/
def find_sad (t : Tree) (name : String) : Option Sad :=
  t.sads.find? (fun s => s.name == name)

/-- The per-`base_sad` body of `merge_simplearraydata` (main.py:134-146): for
every donor, find the same-named series (`assert sad is not None`) and append
its values; afterwards `assert num_rows == num_sad_values`.  The count via the
name-keyed xpath coincides with this series' length because `SimpleArrayData`
names are distinct in a KML document. -/
def mergeSadOne (others : List Tree) (numRows : Nat) (sad : Sad) : Except Err Sad :=
  match foldlExcept
      (fun acc t =>
        match find_sad t sad.name with
        | none => Except.error Err.missingSeries
        | some s => Except.ok (acc ++ s.values))
      sad.values others with
  | Except.error e => Except.error e
  | Except.ok vals =>
    if vals.length = numRows then Except.ok { sad with values := vals }
    else Except.error Err.seriesLengthMismatch

/-- `merge_simplearraydata` (main.py:122-148): `num_rows` is the number of
`when` elements of the (already chained/appended) base tree; every base series
absorbs the same-named donor series and must end up with `num_rows` values. -/
def merge_simplearraydata (base : Tree) (others : List Tree) : Except Err Tree :=
  let numRows := base.allWhens.length
  match mapExcept (mergeSadOne others numRows) base.sads with
  | Except.error e => Except.error e
  | Except.ok sads => Except.ok { base with sads := sads }

/-- The removal loop of `filter_bad_items_from_track` (main.py:166-168):
`for i, when, coord in reversed(coords_to_drop): track.remove(when);
track.remove(coord)`.  `track` is the first `gx:Track` element, whose original
`when` / `coord` child counts are `w0len` / `c0len`; lxml `remove` works by
element identity, so removing the point at global index `i` is erasing index
`i` of the first group's arrays — provided that element is actually a child of
the first track (`i < w0len`, `i < c0len`), otherwise lxml raises
`ValueError` (`notAChild`).  Indices are processed in descending order, so
earlier erasures do not shift the elements still to be removed. -/
def removePoints (w0len c0len : Nat) : List (Nat × Nat × Coord) → PointGroup → Except Err PointGroup
  | [], g => Except.ok g
  | (i, _, _) :: rest, g =>
    if i < w0len then
      if i < c0len then
        removePoints w0len c0len rest ⟨g.whens.eraseIdx i, g.coords.eraseIdx i⟩
      else Except.error Err.notAChild
    else Except.error Err.notAChild

/-- The named-series loop body of `filter_bad_items_from_track`
(main.py:178-183): enumerate the values in reverse and remove those whose
reversed index lies in `reverse_dropped_indices`. -/
def filterSadValues (revDrop : List Nat) (vals : List String) : List String :=
  (((enumerate 0 vals.reverse).filter (fun p => decide (p.1 ∉ revDrop))).map Prod.snd).reverse

/-- One `SimpleArrayData` pass of `filter_bad_items_from_track`
(main.py:175-184), ending in `assert len(array_data) == filtered_len`
(the spec's `FilterConsistencyError`). -/
def filterSad (revDrop : List Nat) (filteredLen : Nat) (s : Sad) : Except Err Sad :=
  let vals := filterSadValues revDrop s.values
  if vals.length = filteredLen then Except.ok { s with values := vals }
  else Except.error Err.filterConsistency

/-- `filter_bad_items_from_track` (main.py:151-185).  Negative-altitude points
are collected with their forward enumeration index; the points are removed
from the first track by identity (descending order), while every named series
drops the values whose reversed enumeration index lies in
`reverse_dropped_indices = \x7barray_len - i\x7d`. -/
def filter_bad_items_from_track (t : Tree) : Except Err Tree :=
  let whens := t.allWhens
  let coords := t.allCoords
  if whens.length = coords.length then
    let drops := (enumerate 0 (whens.zip coords)).filter (fun p => decide (p.2.2.alt < 0))
    let arrayLen := whens.length
    let revDrop := (drops.map (fun p => arrayLen - p.1)).dedup
    let filteredLen := arrayLen - revDrop.length
    let groupsE : Except Err (List PointGroup) :=
      match t.groups with
      | [] => Except.ok []
      | g0 :: rest =>
        match removePoints g0.whens.length g0.coords.length drops.reverse g0 with
        | Except.error e => Except.error e
        | Except.ok g0' => Except.ok (g0' :: rest)
    match groupsE with
    | Except.error e => Except.error e
    | Except.ok gs =>
      match mapExcept (filterSad revDrop filteredLen) t.sads with
      | Except.error e => Except.error e
      | Except.ok sads => Except.ok { t with groups := gs, sads := sads }
  else Except.error Err.whenCoordMismatch

/-- The donor loop of `google_earth_merge` (main.py:194-198): per donor,
`assert next_track_pm is not None` fires first (`missingTrackGroup`); then
`base_track_pm.addnext(...)` dereferences the cursor, which on the first
iteration is the base's first track placemark — `None.addnext` raises
`AttributeError` if the base has none.  After a successful splice the cursor
is the donor's placemark, which exists. -/
def chainDonors : Bool → List Tree → Except Err (List PointGroup)
  | _, [] => Except.ok []
  | cursor, t :: ts =>
    match find_first_track_placemark t with
    | none => Except.error Err.missingTrackGroup
    | some g =>
      if cursor then
        match chainDonors true ts with
        | Except.error e => Except.error e
        | Except.ok gs => Except.ok (g :: gs)
      else Except.error Err.attributeError

/-- `google_earth_merge` (main.py:188-200): splice each donor's first track
placemark right after the previously placed one, then merge the named series
and filter.  `trees[0]` on an empty list raises `IndexError`
(upstream guarantees non-emptiness). -/
def google_earth_merge : List Tree → Except Err Tree
  | [] => Except.error Err.indexError
  | base :: others =>
    match chainDonors (!base.groups.isEmpty) others with
    | Except.error e => Except.error e
    | Except.ok ds =>
      let chained : Tree :=
        { base with groups :=
            match base.groups with
            | [] => []
            | g0 :: rest => g0 :: (ds ++ rest) }
      match merge_simplearraydata chained others with
      | Except.error e => Except.error e
      | Except.ok m => filter_bad_items_from_track m

/-- `myflightbook_merge` (main.py:203-228): append every donor's
`(when, coord)` pairs to the base's first track, check the total coordinate
count, then either merge the named series and filter (`merge_sad`) or remove
the whole `SchemaData` element (dropping every named series;
`find_schemadata(...)` being absent makes `remove_el` dereference `None`). -/
def myflightbook_merge (merge_sad : Bool) : List Tree → Except Err Tree
  | [] => Except.error Err.indexError
  | base :: others =>
    let numBefore := ((base :: others).map (fun t => t.allCoords.length)).sum
    if numBefore = 0 then Except.error Err.noCoords
    else
      match base.groups with
      | [] => Except.error Err.missingTrackGroup
      | g0 :: rest =>
        let pairs := others.map (fun t => t.allWhens.zip t.allCoords)
        let g0' : PointGroup :=
          ⟨g0.whens ++ (pairs.map (fun l => l.map Prod.fst)).flatten,
           g0.coords ++ (pairs.map (fun l => l.map Prod.snd)).flatten⟩
        let merged : Tree := { base with groups := g0' :: rest }
        if merged.allCoords.length = numBefore then
          if merge_sad then
            match merge_simplearraydata merged others with
            | Except.error e => Except.error e
            | Except.ok m => filter_bad_items_from_track m
          else
            if base.hasSchemaData then
              Except.ok { merged with sads := [], hasSchemaData := false }
            else Except.error Err.attributeError
        else Except.error Err.pointCountMismatch

/-- The three entries of the `MERGES` dict (main.py:231-235). -/
inductive MergeType where
  | google
  | mfb
  | mfbSad
deriving DecidableEq, Repr

/-- Strategy dispatch (main.py:231-235). -/
def MERGES : MergeType → List Tree → Except Err Tree
  | MergeType.google => google_earth_merge
  | MergeType.mfb => myflightbook_merge false
  | MergeType.mfbSad => myflightbook_merge true

/-- `merge_ff_kmls` (main.py:238-247): combine the flight titles before the
merge mutates the base, run the selected strategy, overwrite the base title. -/
def merge_ff_kmls (trees : List Tree) (merge_type : MergeType) : Except Err Tree :=
  let finalTitle := combine_flight_titles (trees.map Tree.title)
  match MERGES merge_type trees with
  | Except.error e => Except.error e
  | Except.ok base => Except.ok { base with title := finalTitle }

/-- `get_track_start_time` (main.py:78-79): the first `when` text of the
document (the timestamp of the first point); `None.text` raises if there is
no point. -/
def get_track_start_time (t : Tree) : Option Nat :=
  t.allWhens.head?

/-- The sort key of a tree (its start timestamp; `0` is never used because
`sort_and_select` first checks every tree has one). -/
def startKey (t : Tree) : Nat :=
  (get_track_start_time t).getD 0

/-- The sort key comparison Python's stable `sorted` uses in
`sort_and_select`: ascending start timestamps. -/
def keyLe (a b : Tree) : Prop :=
  startKey a ≤ startKey b

instance : DecidableRel keyLe := fun a b =>
  inferInstanceAs (Decidable (startKey a ≤ startKey b))

instance : IsTotal Tree keyLe :=
  ⟨fun _ _ => Nat.le_total _ _⟩

instance : IsTrans Tree keyLe :=
  ⟨fun _ _ _ => Nat.le_trans⟩

/-- `sort_and_select` (main.py:250-255): stable-sort by start time (Python's
`sorted`, modelled by insertion sort with a non-strict key comparison, which
is stable), then, if a non-empty index list was given, re-index the sorted
sequence (`trees[i]` raising `IndexError` when out of range); finally
`assert len(trees)`. -/
def sort_and_select (indices : List Nat) (trees : List Tree) : Except Err (List Tree) :=
  if trees.all (fun t => (get_track_start_time t).isSome) then
    let ts := List.insertionSort keyLe trees
    let sel : Except Err (List Tree) :=
      if indices.isEmpty then Except.ok ts
      else
        mapExcept (fun i => if h : i < ts.length then Except.ok ts[i] else Except.error Err.indexError)
          indices
    match sel with
    | Except.error e => Except.error e
    | Except.ok ts' =>
      if ts'.isEmpty then Except.error Err.emptyInput else Except.ok ts'
  else Except.error Err.attributeError

/-- Splitting the empty title yields one empty piece, as in Python. -/
theorem splitDash_nil : splitDash [] = [[]] := rfl

/-- Merging an empty title into a non-trivial accumulator is a no-op: the
empty first piece is a suffix of anything and no pieces remain to append. -/
theorem mergeTitleStep_nil_right (curr : PyStr) : mergeTitleStep curr [] = curr := by
  simp [mergeTitleStep, splitDash, splitDashAux, joinDash]

/-- The merge step never empties a non-empty accumulator. -/
theorem mergeTitleStep_ne_nil (curr title : PyStr) (h : curr ≠ []) :
    mergeTitleStep curr title ≠ [] := by
  simp only [mergeTitleStep]
  split
  · cases hT : (splitDash title).tail with
    | nil => simpa [joinDash] using h
    | cons a as => simp [joinDash, List.append_eq_nil, h]
  · simp [List.append_eq_nil, h]

/-- Once the accumulator is non-empty, the source's fold step coincides with
the plain merge step. -/
theorem foldl_combineStep_of_ne_nil :
    ∀ (ts : List PyStr) (curr : PyStr), curr ≠ [] →
      ts.foldl (fun c t => if c.isEmpty then t else mergeTitleStep c t) curr =
        ts.foldl mergeTitleStep curr
  | [], _, _ => rfl
  | t :: ts, curr, h => by
    have hne : curr.isEmpty = false := by simp [List.isEmpty_iff, h]
    simp only [List.foldl_cons, hne, Bool.false_eq_true, if_false]
    exact foldl_combineStep_of_ne_nil ts (mergeTitleStep curr t) (mergeTitleStep_ne_nil _ _ h)

/-- The source's title fold equals the spec's formulation (seed with the first
non-empty title, then fold the merge step). -/
theorem combine_flight_titles_eq_spec (titles : List PyStr) :
    combine_flight_titles titles = specCombineTitles titles := by
  induction titles with
  | nil => rfl
  | cons t ts ih =>
    by_cases h : t = []
    · subst h
      have h1 : combine_flight_titles ([] :: ts) = combine_flight_titles ts := by
        simp [combine_flight_titles]
      have h2 : specCombineTitles ([] :: ts) = specCombineTitles ts := by
        simp [specCombineTitles, List.dropWhile]
      rw [h1, h2, ih]
    · have hne : t.isEmpty = false := by simp [List.isEmpty_iff, h]
      have h1 : combine_flight_titles (t :: ts) =
          ts.foldl (fun c x => if c.isEmpty then x else mergeTitleStep c x) t := by
        simp [combine_flight_titles]
      rw [h1, foldl_combineStep_of_ne_nil ts t h]
      simp [specCombineTitles, List.dropWhile, hne]

/-- C4: the Title Reconciler is the spec's fold — seed with the first
non-empty title; per subsequent title split on " - ", join on suffix overlap
(overlap kept once) and concatenate directly otherwise — and the three
concrete examples evaluate as claimed. -/
theorem claim_C4_title_fold :
    (∀ titles : List PyStr, combine_flight_titles titles = specCombineTitles titles) ∧
    combine_flight_titles ["KSJC - KPAO".toList, "KPAO - KOAK".toList] =
      "KSJC - KPAO - KOAK".toList ∧
    combine_flight_titles ["A".toList, "B".toList] = "AB".toList ∧
    combine_flight_titles [] = [] :=
  ⟨combine_flight_titles_eq_spec, by decide, by decide, rfl⟩

/-- The source's fold step ignores an empty incoming title. -/
theorem combineStep_nil_right (curr : PyStr) :
    (if curr.isEmpty then ([] : PyStr) else mergeTitleStep curr []) = curr := by
  by_cases h : curr = []
  · subst h; rfl
  · have hne : curr.isEmpty = false := by simp [List.isEmpty_iff, h]
    simp [hne, mergeTitleStep_nil_right]

/-- Dropping empty titles from the input does not change the fold. -/
theorem foldl_combineStep_filter :
    ∀ (l : List PyStr) (curr : PyStr),
      (l.filter (fun t => !t.isEmpty)).foldl
          (fun c t => if c.isEmpty then t else mergeTitleStep c t) curr =
        l.foldl (fun c t => if c.isEmpty then t else mergeTitleStep c t) curr
  | [], _ => rfl
  | a :: l, curr => by
    by_cases ha : a = []
    · subst ha
      have : (if curr.isEmpty then ([] : PyStr) else mergeTitleStep curr []) = curr :=
        combineStep_nil_right curr
      simp only [List.filter_cons, List.isEmpty_nil, Bool.not_true, Bool.false_eq_true,
        if_false, List.foldl_cons, this]
      exact foldl_combineStep_filter l curr
    · have hne : a.isEmpty = false := by simp [List.isEmpty_iff, ha]
      simp only [List.filter_cons, hne, Bool.not_false, if_true, List.foldl_cons]
      exact foldl_combineStep_filter l _

/-- C10: empty titles are inert — `combine_flight_titles` gives the same
result as on the list with all empty strings removed. -/
theorem claim_C10_empty_titles_inert (titles : List PyStr) :
    combine_flight_titles titles =
      combine_flight_titles (titles.filter (fun t => !t.isEmpty)) :=
  (foldl_combineStep_filter titles []).symm

/-- Shifting the start index of an enumeration shifts every index. -/
theorem enumerate_shift : ∀ (l : List α) (n : Nat),
    enumerate (n + 1) l = (enumerate n l).map (fun q => (q.1 + 1, q.2))
  | [], _ => rfl
  | a :: as, n => by
    simp only [enumerate, List.map_cons]
    exact congrArg _ (enumerate_shift as (n + 1))

/-- Enumeration indices are bounded by start plus length. -/
theorem mem_enumerate_lt : ∀ (l : List α) (n : Nat) (q : Nat × α),
    q ∈ enumerate n l → q.1 < n + l.length
  | [], _, _, h => by simp [enumerate] at h
  | a :: as, n, q, h => by
    simp only [enumerate, List.mem_cons] at h
    rcases h with h | h
    · subst h
      simp only [List.length_cons]
      omega
    · have := mem_enumerate_lt as (n + 1) q h
      simp only [List.length_cons]
      omega

/-- Erasing only at successor indices leaves the head alone. -/
theorem foldl_eraseIdx_succ : ∀ (idxs : List Nat) (a : α) (l : List α),
    (idxs.map (fun i => i + 1)).foldl List.eraseIdx (a :: l) = a :: idxs.foldl List.eraseIdx l
  | [], _, _ => rfl
  | i :: is, a, l => by
    simp only [List.map_cons, List.foldl_cons, List.eraseIdx_cons_succ]
    exact foldl_eraseIdx_succ is a (l.eraseIdx i)

/-- The indices of the elements satisfying `p`, over a cons cell. -/
theorem badIdxs_cons (p : α → Bool) (a : α) (l : List α) :
    ((enumerate 0 (a :: l)).filter (fun q => p q.2)).map Prod.fst
      = (if p a then [0] else [])
        ++ (((enumerate 0 l).filter (fun q => p q.2)).map Prod.fst).map (fun i => i + 1) := by
  have hE : enumerate 0 (a :: l) = (0, a) :: (enumerate 0 l).map (fun q => (q.1 + 1, q.2)) := by
    simp only [enumerate]
    exact congrArg _ (enumerate_shift l 0)
  rw [hE, List.filter_cons]
  have hc : List.filter (fun q => p q.2) ((enumerate 0 l).map (fun q => (q.1 + 1, q.2)))
      = ((enumerate 0 l).filter (fun q => p q.2)).map (fun q => (q.1 + 1, q.2)) :=
    List.filter_map (fun q => (q.1 + 1, q.2)) (enumerate 0 l)
  by_cases hp : p a = true
  · rw [if_pos hp, if_pos hp, hc]
    simp only [List.map_cons, List.map_map, List.singleton_append]
    rfl
  · rw [if_neg hp, if_neg hp, hc]
    simp only [List.map_map, List.nil_append]
    rfl

/-- Erasing, in descending order, exactly the positions whose element
satisfies `p` is the same as filtering `p` out. -/
theorem foldl_eraseIdx_enum_filter (p : α → Bool) : ∀ (l : List α),
    ((((enumerate 0 l).filter (fun q => p q.2)).map Prod.fst).reverse).foldl List.eraseIdx l
      = l.filter (fun a => !p a)
  | [] => rfl
  | a :: l => by
    have IH := foldl_eraseIdx_enum_filter p l
    rw [badIdxs_cons]
    by_cases hp : p a = true
    · rw [if_pos hp, List.reverse_append, ← List.map_reverse]
      rw [List.foldl_append, foldl_eraseIdx_succ, IH]
      simp [List.filter_cons, hp, List.eraseIdx]
    · rw [if_neg hp, List.nil_append, ← List.map_reverse]
      rw [foldl_eraseIdx_succ, IH]
      simp [List.filter_cons, hp]

/-- Erasure commutes with `map`. -/
theorem map_eraseIdx (f : α → β) : ∀ (l : List α) (i : Nat),
    (l.map f).eraseIdx i = (l.eraseIdx i).map f
  | [], _ => rfl
  | _ :: _, 0 => rfl
  | a :: l, i + 1 => by
    simp only [List.map_cons, List.eraseIdx_cons_succ]
    exact congrArg _ (map_eraseIdx f l i)

/-- Iterated erasure commutes with `map`. -/
theorem foldl_eraseIdx_map (f : α → β) : ∀ (idxs : List Nat) (l : List α),
    idxs.foldl List.eraseIdx (l.map f) = (idxs.foldl List.eraseIdx l).map f
  | [], _ => rfl
  | i :: is, l => by
    simp only [List.foldl_cons, map_eraseIdx]
    exact foldl_eraseIdx_map f is (l.eraseIdx i)

/-- With in-bounds indices the removal loop of the filter never raises and is
iterated erasure on both parallel arrays. -/
theorem removePoints_eq_foldl : ∀ (ds : List (Nat × Nat × Coord)) (g : PointGroup) (w0 c0 : Nat),
    (∀ d ∈ ds, d.1 < w0 ∧ d.1 < c0) →
    removePoints w0 c0 ds g =
      Except.ok ⟨(ds.map (fun d => d.1)).foldl List.eraseIdx g.whens,
                 (ds.map (fun d => d.1)).foldl List.eraseIdx g.coords⟩
  | [], _, _, _, _ => rfl
  | (i, w, c) :: ds, g, w0, c0, hb => by
    have h1 := hb (i, w, c) (List.mem_cons_self _ _)
    simp only [removePoints, if_pos h1.1, if_pos h1.2, List.map_cons, List.foldl_cons]
    exact removePoints_eq_foldl ds _ w0 c0 (fun d hd => hb d (List.mem_cons_of_mem _ hd))

/-- Specialization of the erase-filter correspondence to the first projection
of a point list. -/
theorem foldl_erase_zip_fst (z : List (Nat × Coord)) :
    List.foldl List.eraseIdx (z.map Prod.fst)
      ((((enumerate 0 z).filter (fun p => decide (p.2.2.alt < 0))).map (fun d => d.1)).reverse)
    = (z.filter (fun wc => !decide (wc.2.alt < 0))).map Prod.fst := by
  rw [foldl_eraseIdx_map]
  exact congrArg _ (foldl_eraseIdx_enum_filter (fun wc => decide (wc.2.alt < 0)) z)

/-- Specialization of the erase-filter correspondence to the second projection
of a point list. -/
theorem foldl_erase_zip_snd (z : List (Nat × Coord)) :
    List.foldl List.eraseIdx (z.map Prod.snd)
      ((((enumerate 0 z).filter (fun p => decide (p.2.2.alt < 0))).map (fun d => d.1)).reverse)
    = (z.filter (fun wc => !decide (wc.2.alt < 0))).map Prod.snd := by
  rw [foldl_eraseIdx_map]
  exact congrArg _ (foldl_eraseIdx_enum_filter (fun wc => decide (wc.2.alt < 0)) z)

/-- The filter's point-removal phase: on equal-length parallel arrays it
deletes exactly the pairs whose coordinate has negative altitude, preserving
the relative order of the survivors. -/
theorem removePoints_drops_spec (whens : List Nat) (coords : List Coord)
    (h : whens.length = coords.length) :
    removePoints whens.length coords.length
      (((enumerate 0 (whens.zip coords)).filter (fun p => decide (p.2.2.alt < 0))).reverse)
      ⟨whens, coords⟩ =
    Except.ok
      ⟨((whens.zip coords).filter (fun wc => !decide (wc.2.alt < 0))).map Prod.fst,
       ((whens.zip coords).filter (fun wc => !decide (wc.2.alt < 0))).map Prod.snd⟩ := by
  have hlen : (whens.zip coords).length = whens.length := by
    rw [List.length_zip, h, Nat.min_self]
  have hb : ∀ d ∈ ((enumerate 0 (whens.zip coords)).filter
      (fun p => decide (p.2.2.alt < 0))).reverse, d.1 < whens.length ∧ d.1 < coords.length := by
    intro d hd
    rw [List.mem_reverse, List.mem_filter] at hd
    have := mem_enumerate_lt _ 0 d hd.1
    rw [hlen] at this
    omega
  rw [removePoints_eq_foldl _ _ _ _ hb]
  have hW : whens = (whens.zip coords).map Prod.fst :=
    (List.map_fst_zip whens coords (le_of_eq h)).symm
  have hC : coords = (whens.zip coords).map Prod.snd :=
    (List.map_snd_zip whens coords (ge_of_eq h)).symm
  obtain ⟨z, hz⟩ : ∃ z, z = whens.zip coords := ⟨_, rfl⟩
  rw [← hz] at hW hC ⊢
  rw [hW, hC, List.map_reverse]
  exact congrArg Except.ok
    (congrArg₂ PointGroup.mk (foldl_erase_zip_fst z) (foldl_erase_zip_snd z))

/-- Enumerating and projecting back the elements is the identity. -/
theorem enumerate_map_snd : ∀ (l : List α) (n : Nat), (enumerate n l).map Prod.snd = l
  | [], _ => rfl
  | a :: as, n => by
    simp only [enumerate, List.map_cons]
    exact congrArg _ (enumerate_map_snd as (n + 1))

/-- Elements of an enumeration belong to the underlying list. -/
theorem mem_enumerate_mem : ∀ (l : List α) (n : Nat) (q : Nat × α), q ∈ enumerate n l → q.2 ∈ l
  | [], _, _, h => by simp [enumerate] at h
  | a :: as, n, q, h => by
    simp only [enumerate, List.mem_cons] at h
    rcases h with h | h
    · subst h
      exact List.mem_cons_self _ _
    · exact List.mem_cons_of_mem _ (mem_enumerate_mem as (n + 1) q h)

/-- With no reversed indices to drop, the named-series pass keeps every value. -/
theorem filterSadValues_nil (vals : List String) : filterSadValues [] vals = vals := by
  unfold filterSadValues
  have h1 : (enumerate 0 vals.reverse).filter (fun p => decide (p.1 ∉ ([] : List Nat)))
      = enumerate 0 vals.reverse := by
    rw [List.filter_eq_self]
    intro q _
    simp
  rw [h1, enumerate_map_snd, List.reverse_reverse]

/-- A series of the expected length passes the filter assert untouched when
there is nothing to drop. -/
theorem filterSad_nil (filteredLen : Nat) (s : Sad) (h : s.values.length = filteredLen) :
    filterSad [] filteredLen s = Except.ok s := by
  simp only [filterSad, filterSadValues_nil]
  rw [if_pos h]

/-- A loop body that succeeds identically on every element makes the loop the
identity. -/
theorem mapExcept_congr_id : ∀ (l : List α) (f : α → Except Err α),
    (∀ a ∈ l, f a = Except.ok a) → mapExcept f l = Except.ok l
  | [], _, _ => rfl
  | a :: as, f, h => by
    simp only [mapExcept, h a (List.mem_cons_self _ _),
      mapExcept_congr_id as f (fun b hb => h b (List.mem_cons_of_mem _ hb))]

/-- The Consistency Filter is the identity on an aligned track with no
negative-altitude point. -/
theorem filter_noop (t : Tree)
    (hwc : t.allWhens.length = t.allCoords.length)
    (hsads : ∀ s ∈ t.sads, s.values.length = t.allWhens.length)
    (hpos : ∀ c ∈ t.allCoords, ¬ c.alt < 0) :
    filter_bad_items_from_track t = Except.ok t := by
  have hdrops : (enumerate 0 (t.allWhens.zip t.allCoords)).filter
      (fun p => decide (p.2.2.alt < 0)) = [] := by
    rw [List.filter_eq_nil_iff]
    intro q hq
    have hmem : q.2 ∈ t.allWhens.zip t.allCoords := mem_enumerate_mem _ 0 q hq
    have hc : q.2.2 ∈ t.allCoords := (List.of_mem_zip hmem).2
    simp [hpos _ hc]
  simp only [filter_bad_items_from_track, hdrops, List.map_nil, List.dedup_nil,
    List.length_nil, Nat.sub_zero, List.reverse_nil]
  rw [if_pos hwc]
  have hmap : mapExcept (filterSad [] t.allWhens.length) t.sads = Except.ok t.sads :=
    mapExcept_congr_id t.sads _ (fun s hs => filterSad_nil _ s (hsads s hs))
  rcases t with ⟨title, groups, sads, schema⟩
  cases groups with
  | nil => simp_all
  | cons g0 rest => simp_all [removePoints]

/-- Enumeration indices are at least the start index. -/
theorem mem_enumerate_ge : ∀ (l : List α) (n : Nat) (q : Nat × α), q ∈ enumerate n l → n ≤ q.1
  | [], _, _, h => by simp [enumerate] at h
  | a :: as, n, q, h => by
    simp only [enumerate, List.mem_cons] at h
    rcases h with h | h
    · subst h
      exact Nat.le_refl n
    · have := mem_enumerate_ge as (n + 1) q h
      omega

/-- Enumeration indices are strictly increasing. -/
theorem enumerate_pairwise_lt : ∀ (l : List α) (n : Nat),
    (enumerate n l).Pairwise (fun q r => q.1 < r.1)
  | [], _ => List.Pairwise.nil
  | a :: as, n => by
    simp only [enumerate]
    refine List.Pairwise.cons ?_ (enumerate_pairwise_lt as (n + 1))
    intro q hq
    have := mem_enumerate_ge as (n + 1) q hq
    show n < q.1
    omega

/-- Erasing at strictly descending indices that all lie in the first part of
an append never touches the second part. -/
theorem foldl_eraseIdx_append : ∀ (idxs : List Nat) (a b : List α),
    idxs.Pairwise (fun i j => j < i) → (∀ i ∈ idxs, i < a.length) →
    idxs.foldl List.eraseIdx (a ++ b) = (idxs.foldl List.eraseIdx a) ++ b
  | [], _, _, _, _ => rfl
  | i :: is, a, b, hp, hlt => by
    have hi : i < a.length := hlt i (List.mem_cons_self _ _)
    simp only [List.foldl_cons, List.eraseIdx_append_of_lt_length hi]
    refine foldl_eraseIdx_append is _ b (List.pairwise_cons.mp hp).2 ?_
    intro j hj
    have hji : j < i := (List.pairwise_cons.mp hp).1 j hj
    have hlen : (a.eraseIdx i).length = a.length - 1 := List.length_eraseIdx_of_lt hi
    omega

/-- If the removal loop completed, every processed index was a child of the
first track: in bounds of both of its original arrays. -/
theorem removePoints_ok_bounds : ∀ (ds : List (Nat × Nat × Coord)) (g : PointGroup)
    (w0 c0 : Nat) (g' : PointGroup),
    removePoints w0 c0 ds g = Except.ok g' → ∀ d ∈ ds, d.1 < w0 ∧ d.1 < c0
  | [], _, _, _, _, _ => by
    intro d hd
    exact absurd hd (List.not_mem_nil d)
  | (i, w, c) :: ds, g, w0, c0, g', hok => by
    simp only [removePoints] at hok
    by_cases h1 : i < w0
    · rw [if_pos h1] at hok
      by_cases h2 : i < c0
      · rw [if_pos h2] at hok
        intro d hd
        rcases List.mem_cons.mp hd with rfl | hd
        · exact ⟨h1, h2⟩
        · exact removePoints_ok_bounds ds _ w0 c0 g' hok d hd
      · rw [if_neg h2] at hok
        exact Except.noConfusion hok
    · rw [if_neg h1] at hok
      exact Except.noConfusion hok

/-- Erasing the invalid positions, in descending order, from the full `when`
sequence is filtering the invalid points out. -/
theorem foldl_erase_whens (whens : List Nat) (coords : List Coord)
    (h : whens.length = coords.length) :
    List.foldl List.eraseIdx whens
      ((((enumerate 0 (whens.zip coords)).filter
          (fun p => decide (p.2.2.alt < 0))).map (fun d => d.1)).reverse)
      = ((whens.zip coords).filter (fun wc => !decide (wc.2.alt < 0))).map Prod.fst := by
  have hW : whens = (whens.zip coords).map Prod.fst :=
    (List.map_fst_zip whens coords (le_of_eq h)).symm
  obtain ⟨z, hz⟩ : ∃ z, z = whens.zip coords := ⟨_, rfl⟩
  rw [← hz] at hW ⊢
  rw [hW]
  exact foldl_erase_zip_fst z

/-- Erasing the invalid positions, in descending order, from the full `coord`
sequence is filtering the invalid points out. -/
theorem foldl_erase_coords (whens : List Nat) (coords : List Coord)
    (h : whens.length = coords.length) :
    List.foldl List.eraseIdx coords
      ((((enumerate 0 (whens.zip coords)).filter
          (fun p => decide (p.2.2.alt < 0))).map (fun d => d.1)).reverse)
      = ((whens.zip coords).filter (fun wc => !decide (wc.2.alt < 0))).map Prod.snd := by
  have hC : coords = (whens.zip coords).map Prod.snd :=
    (List.map_snd_zip whens coords (ge_of_eq h)).symm
  obtain ⟨z, hz⟩ : ∃ z, z = whens.zip coords := ⟨_, rfl⟩
  rw [← hz] at hC ⊢
  rw [hC]
  exact foldl_erase_zip_snd z

/-- Unfolding of `Tree.allWhens` on a literal tree. -/
theorem allWhens_mk (title : PyStr) (gs : List PointGroup) (sads : List Sad) (b : Bool) :
    Tree.allWhens ⟨title, gs, sads, b⟩ = (gs.map PointGroup.whens).flatten :=
  rfl

/-- Unfolding of `Tree.allCoords` on a literal tree. -/
theorem allCoords_mk (title : PyStr) (gs : List PointGroup) (sads : List Sad) (b : Bool) :
    Tree.allCoords ⟨title, gs, sads, b⟩ = (gs.map PointGroup.coords).flatten :=
  rfl

/-- C9: the Consistency Filter removes timestamps and coordinates correctly —
whenever it completes on a track with equal-length timestamp/coordinate
sequences (single- or multi-group), the surviving sequences are the originals
with exactly the negative-altitude positions removed, in original relative
order (removal works by element identity over the forward traversal,
independently of the reversed index arithmetic used for the named series). -/
theorem claim_C9_point_removal_exact (t t' : Tree)
    (h : t.allWhens.length = t.allCoords.length)
    (hok : filter_bad_items_from_track t = Except.ok t') :
    t'.allWhens =
      ((t.allWhens.zip t.allCoords).filter (fun wc => !decide (wc.2.alt < 0))).map Prod.fst ∧
    t'.allCoords =
      ((t.allWhens.zip t.allCoords).filter (fun wc => !decide (wc.2.alt < 0))).map Prod.snd := by
  simp only [filter_bad_items_from_track] at hok
  rw [if_pos h] at hok
  cases hg : t.groups with
  | nil =>
    rw [hg] at hok
    have hW0 : t.allWhens = [] := by simp [Tree.allWhens, hg]
    split at hok
    · exact Except.noConfusion hok
    · rename_i gs heq
      split at hok
      · exact Except.noConfusion hok
      · rename_i sads2 heq2
        have ht := Except.ok.inj hok
        subst ht
        have hgs : ([] : List PointGroup) = gs := Except.ok.inj heq
        subst hgs
        constructor
        · rw [allWhens_mk]
          simp [hW0]
        · rw [allCoords_mk]
          simp [hW0]
  | cons g0 rest =>
    rw [hg] at hok
    split at hok
    · exact Except.noConfusion hok
    · rename_i gs heq
      split at hok
      · exact Except.noConfusion hok
      · rename_i sads2 heq2
        have ht := Except.ok.inj hok
        subst ht
        have heq' : (match removePoints g0.whens.length g0.coords.length
            (((enumerate 0 (t.allWhens.zip t.allCoords)).filter
              (fun p => decide (p.2.2.alt < 0))).reverse) g0 with
          | Except.error e => Except.error e
          | Except.ok g0' => Except.ok (g0' :: rest)) = Except.ok gs := heq
        split at heq'
        · exact Except.noConfusion heq'
        · rename_i g0' heqrp
          have hgs : g0' :: rest = gs := Except.ok.inj heq'
          subst hgs
          have hbounds := removePoints_ok_bounds _ g0 _ _ g0' heqrp
          have heqf := removePoints_eq_foldl
            (((enumerate 0 (t.allWhens.zip t.allCoords)).filter
              (fun p => decide (p.2.2.alt < 0))).reverse) g0 _ _ hbounds
          have hg0' := Except.ok.inj (heqrp.symm.trans heqf)
          have hpw : (((enumerate 0 (t.allWhens.zip t.allCoords)).filter
              (fun p => decide (p.2.2.alt < 0))).map (fun d => d.1)).reverse.Pairwise
              (fun i j => j < i) := by
            rw [List.pairwise_reverse, List.pairwise_map]
            exact List.Pairwise.filter _ (enumerate_pairwise_lt _ 0)
          have hltW : ∀ i ∈ (((enumerate 0 (t.allWhens.zip t.allCoords)).filter
              (fun p => decide (p.2.2.alt < 0))).map (fun d => d.1)).reverse,
              i < g0.whens.length := by
            intro i hi
            rw [List.mem_reverse, List.mem_map] at hi
            obtain ⟨d, hd, rfl⟩ := hi
            exact (hbounds d (by rw [List.mem_reverse]; exact hd)).1
          have hltC : ∀ i ∈ (((enumerate 0 (t.allWhens.zip t.allCoords)).filter
              (fun p => decide (p.2.2.alt < 0))).map (fun d => d.1)).reverse,
              i < g0.coords.length := by
            intro i hi
            rw [List.mem_reverse, List.mem_map] at hi
            obtain ⟨d, hd, rfl⟩ := hi
            exact (hbounds d (by rw [List.mem_reverse]; exact hd)).2
          have hWt : t.allWhens = g0.whens ++ (rest.map PointGroup.whens).flatten := by
            simp [Tree.allWhens, hg]
          have hCt : t.allCoords = g0.coords ++ (rest.map PointGroup.coords).flatten := by
            simp [Tree.allCoords, hg]
          have hg0w : g0'.whens = List.foldl List.eraseIdx g0.whens
              ((((enumerate 0 (t.allWhens.zip t.allCoords)).filter
                (fun p => decide (p.2.2.alt < 0))).map (fun d => d.1)).reverse) := by
            rw [hg0', List.map_reverse]
          have hg0c : g0'.coords = List.foldl List.eraseIdx g0.coords
              ((((enumerate 0 (t.allWhens.zip t.allCoords)).filter
                (fun p => decide (p.2.2.alt < 0))).map (fun d => d.1)).reverse) := by
            rw [hg0', List.map_reverse]
          constructor
          · calc Tree.allWhens { t with groups := g0' :: rest, sads := sads2 }
                = g0'.whens ++ (rest.map PointGroup.whens).flatten := by
                  rw [allWhens_mk]
                  simp
              _ = List.foldl List.eraseIdx
                    (g0.whens ++ (rest.map PointGroup.whens).flatten)
                    ((((enumerate 0 (t.allWhens.zip t.allCoords)).filter
                      (fun p => decide (p.2.2.alt < 0))).map (fun d => d.1)).reverse) := by
                  rw [hg0w, foldl_eraseIdx_append _ _ _ hpw hltW]
              _ = ((t.allWhens.zip t.allCoords).filter
                    (fun wc => !decide (wc.2.alt < 0))).map Prod.fst := by
                  rw [← hWt]
                  exact foldl_erase_whens t.allWhens t.allCoords h
          · calc Tree.allCoords { t with groups := g0' :: rest, sads := sads2 }
                = g0'.coords ++ (rest.map PointGroup.coords).flatten := by
                  rw [allCoords_mk]
                  simp
              _ = List.foldl List.eraseIdx
                    (g0.coords ++ (rest.map PointGroup.coords).flatten)
                    ((((enumerate 0 (t.allWhens.zip t.allCoords)).filter
                      (fun p => decide (p.2.2.alt < 0))).map (fun d => d.1)).reverse) := by
                  rw [hg0c, foldl_eraseIdx_append _ _ _ hpw hltC]
              _ = ((t.allWhens.zip t.allCoords).filter
                    (fun wc => !decide (wc.2.alt < 0))).map Prod.snd := by
                  rw [← hCt]
                  exact foldl_erase_coords t.allWhens t.allCoords h

/-- Witness for C9 at a concrete two-group (segmented) track: the point at
global index 1 has negative altitude and lies in the first group; the filter
succeeds and the surviving when/coord sequences are exactly the index-filtered
originals across both groups. -/
theorem claim_C9_point_removal_witness :
    ((Tree.allWhens ⟨[], [⟨[10, 11, 12], [⟨0, 0, 5⟩, ⟨0, 0, -1⟩, ⟨0, 0, 7⟩]⟩, ⟨[13], [⟨0, 0, 9⟩]⟩],
        [⟨"s", ["a", "b", "c", "d"]⟩], true⟩).length =
      (Tree.allCoords ⟨[], [⟨[10, 11, 12], [⟨0, 0, 5⟩, ⟨0, 0, -1⟩, ⟨0, 0, 7⟩]⟩, ⟨[13], [⟨0, 0, 9⟩]⟩],
        [⟨"s", ["a", "b", "c", "d"]⟩], true⟩).length) ∧
    (Tree.allWhens ⟨[], [⟨[10, 12], [⟨0, 0, 5⟩, ⟨0, 0, 7⟩]⟩, ⟨[13], [⟨0, 0, 9⟩]⟩],
        [⟨"s", ["b", "c", "d"]⟩], true⟩ =
      (((Tree.allWhens ⟨[], [⟨[10, 11, 12], [⟨0, 0, 5⟩, ⟨0, 0, -1⟩, ⟨0, 0, 7⟩]⟩, ⟨[13], [⟨0, 0, 9⟩]⟩],
          [⟨"s", ["a", "b", "c", "d"]⟩], true⟩).zip
        (Tree.allCoords ⟨[], [⟨[10, 11, 12], [⟨0, 0, 5⟩, ⟨0, 0, -1⟩, ⟨0, 0, 7⟩]⟩, ⟨[13], [⟨0, 0, 9⟩]⟩],
          [⟨"s", ["a", "b", "c", "d"]⟩], true⟩)).filter
            (fun wc => !decide (wc.2.alt < 0))).map Prod.fst ∧
    Tree.allCoords ⟨[], [⟨[10, 12], [⟨0, 0, 5⟩, ⟨0, 0, 7⟩]⟩, ⟨[13], [⟨0, 0, 9⟩]⟩],
        [⟨"s", ["b", "c", "d"]⟩], true⟩ =
      (((Tree.allWhens ⟨[], [⟨[10, 11, 12], [⟨0, 0, 5⟩, ⟨0, 0, -1⟩, ⟨0, 0, 7⟩]⟩, ⟨[13], [⟨0, 0, 9⟩]⟩],
          [⟨"s", ["a", "b", "c", "d"]⟩], true⟩).zip
        (Tree.allCoords ⟨[], [⟨[10, 11, 12], [⟨0, 0, 5⟩, ⟨0, 0, -1⟩, ⟨0, 0, 7⟩]⟩, ⟨[13], [⟨0, 0, 9⟩]⟩],
          [⟨"s", ["a", "b", "c", "d"]⟩], true⟩)).filter
            (fun wc => !decide (wc.2.alt < 0))).map Prod.snd) :=
  ⟨by decide,
    claim_C9_point_removal_exact
      ⟨[], [⟨[10, 11, 12], [⟨0, 0, 5⟩, ⟨0, 0, -1⟩, ⟨0, 0, 7⟩]⟩, ⟨[13], [⟨0, 0, 9⟩]⟩],
        [⟨"s", ["a", "b", "c", "d"]⟩], true⟩
      ⟨[], [⟨[10, 12], [⟨0, 0, 5⟩, ⟨0, 0, 7⟩]⟩, ⟨[13], [⟨0, 0, 9⟩]⟩],
        [⟨"s", ["b", "c", "d"]⟩], true⟩
      (by decide) (by decide)⟩

/-- Counterexample to C8 as stated: this track has no negative-altitude point,
yet the filter is not a no-op on it — the named series is misaligned (2 values
for 1 point), so the final length assert raises instead of returning the track
unchanged. -/
theorem claim_C8_counterexample :
    (∀ c ∈ Tree.allCoords ⟨[], [⟨[0], [⟨0, 0, 0⟩]⟩], [⟨"s", ["a", "b"]⟩], true⟩, ¬ c.alt < 0) ∧
    filter_bad_items_from_track ⟨[], [⟨[0], [⟨0, 0, 0⟩]⟩], [⟨"s", ["a", "b"]⟩], true⟩ ≠
      Except.ok ⟨[], [⟨[0], [⟨0, 0, 0⟩]⟩], [⟨"s", ["a", "b"]⟩], true⟩ := by
  constructor
  · decide
  · decide

/-- C8 (amended): on an aligned track (ARR-EQ holds) with no invalid point —
in particular the output of a successful previous filter run — the Consistency
Filter returns the track unchanged, so a second run is a no-op. -/
theorem claim_C8_filter_idempotent (t : Tree)
    (hwc : t.allWhens.length = t.allCoords.length)
    (hsads : ∀ s ∈ t.sads, s.values.length = t.allWhens.length)
    (hpos : ∀ c ∈ t.allCoords, ¬ c.alt < 0) :
    filter_bad_items_from_track t = Except.ok t :=
  filter_noop t hwc hsads hpos

/-- Witness for C8 at a concrete aligned, all-valid track. -/
theorem claim_C8_filter_idempotent_witness :
    ((Tree.allWhens ⟨[], [⟨[1, 2], [⟨0, 0, 3⟩, ⟨0, 0, 4⟩]⟩], [⟨"s", ["a", "b"]⟩], true⟩).length =
        (Tree.allCoords ⟨[], [⟨[1, 2], [⟨0, 0, 3⟩, ⟨0, 0, 4⟩]⟩], [⟨"s", ["a", "b"]⟩], true⟩).length) ∧
    filter_bad_items_from_track ⟨[], [⟨[1, 2], [⟨0, 0, 3⟩, ⟨0, 0, 4⟩]⟩], [⟨"s", ["a", "b"]⟩], true⟩ =
      Except.ok ⟨[], [⟨[1, 2], [⟨0, 0, 3⟩, ⟨0, 0, 4⟩]⟩], [⟨"s", ["a", "b"]⟩], true⟩ :=
  ⟨by decide,
    claim_C8_filter_idempotent ⟨[], [⟨[1, 2], [⟨0, 0, 3⟩, ⟨0, 0, 4⟩]⟩], [⟨"s", ["a", "b"]⟩], true⟩
      (by decide) (by decide) (by decide)⟩

/-- C1 fails on the code (the spec is the intent): on an aligned 8-point track
whose invalid points are exactly indices \x7b2, 7\x7d, the filter drops the
timestamps/coordinates at 2 and 7 but drops the named-series values at ordinal
positions 1 and 6 — `reverse_dropped_indices = \x7barray_len - i\x7d` is off by
one with respect to the reversed enumeration, so the surviving series is
["v0","v2","v3","v4","v5","v7"], not the claimed ["v0","v1","v3","v4","v5","v6"]. -/
theorem claim_C1_series_offbyone :
    filter_bad_items_from_track
        ⟨[], [⟨[0, 1, 2, 3, 4, 5, 6, 7],
               [⟨0, 0, 0⟩, ⟨0, 0, 0⟩, ⟨0, 0, -1⟩, ⟨0, 0, 0⟩,
                ⟨0, 0, 0⟩, ⟨0, 0, 0⟩, ⟨0, 0, 0⟩, ⟨0, 0, -1⟩]⟩],
          [⟨"s", ["v0", "v1", "v2", "v3", "v4", "v5", "v6", "v7"]⟩], true⟩ =
      Except.ok
        ⟨[], [⟨[0, 1, 3, 4, 5, 6],
               [⟨0, 0, 0⟩, ⟨0, 0, 0⟩, ⟨0, 0, 0⟩, ⟨0, 0, 0⟩, ⟨0, 0, 0⟩, ⟨0, 0, 0⟩]⟩],
          [⟨"s", ["v0", "v2", "v3", "v4", "v5", "v7"]⟩], true⟩ ∧
    (["v0", "v2", "v3", "v4", "v5", "v7"] : List String) ≠
      ["v0", "v1", "v3", "v4", "v5", "v6"] := by
  constructor
  · decide
  · decide

/-- C2 fails on the code (the spec is the intent): this track is fully aligned
(2 whens, 2 coords, a 2-value series) and its only invalid point is index 0;
`array_len - 0 = array_len` is outside the reversed enumeration, so no series
value is dropped and the final length assert raises `FilterConsistencyError`
even though no parallel array was misaligned. -/
theorem claim_C2_index_zero_failure :
    ((Tree.allWhens ⟨[], [⟨[0, 1], [⟨0, 0, -1⟩, ⟨0, 0, 0⟩]⟩], [⟨"s", ["a", "b"]⟩], true⟩).length =
        (Tree.allCoords ⟨[], [⟨[0, 1], [⟨0, 0, -1⟩, ⟨0, 0, 0⟩]⟩], [⟨"s", ["a", "b"]⟩], true⟩).length) ∧
    (∀ s ∈ Tree.sads ⟨[], [⟨[0, 1], [⟨0, 0, -1⟩, ⟨0, 0, 0⟩]⟩], [⟨"s", ["a", "b"]⟩], true⟩,
        s.values.length =
          (Tree.allWhens ⟨[], [⟨[0, 1], [⟨0, 0, -1⟩, ⟨0, 0, 0⟩]⟩], [⟨"s", ["a", "b"]⟩], true⟩).length) ∧
    filter_bad_items_from_track ⟨[], [⟨[0, 1], [⟨0, 0, -1⟩, ⟨0, 0, 0⟩]⟩], [⟨"s", ["a", "b"]⟩], true⟩ =
      Except.error Err.filterConsistency := by
  refine ⟨by decide, by decide, by decide⟩

/-- C3 fails on the code (the spec is the intent): a single well-formed input
track (aligned arrays, series name present trivially) whose first point has
negative altitude makes the full mfb-sad pipeline abort with the filter's
length assert instead of yielding an output satisfying ARR-EQ. -/
theorem claim_C3_pipeline_abort :
    ((Tree.allWhens ⟨"t".toList, [⟨[0, 1], [⟨0, 0, -1⟩, ⟨0, 0, 0⟩]⟩], [⟨"s", ["a", "b"]⟩], true⟩).length =
        (Tree.allCoords ⟨"t".toList, [⟨[0, 1], [⟨0, 0, -1⟩, ⟨0, 0, 0⟩]⟩], [⟨"s", ["a", "b"]⟩], true⟩).length) ∧
    (∀ s ∈ Tree.sads ⟨"t".toList, [⟨[0, 1], [⟨0, 0, -1⟩, ⟨0, 0, 0⟩]⟩], [⟨"s", ["a", "b"]⟩], true⟩,
        s.values.length =
          (Tree.allWhens ⟨"t".toList, [⟨[0, 1], [⟨0, 0, -1⟩, ⟨0, 0, 0⟩]⟩], [⟨"s", ["a", "b"]⟩], true⟩).length) ∧
    merge_ff_kmls [⟨"t".toList, [⟨[0, 1], [⟨0, 0, -1⟩, ⟨0, 0, 0⟩]⟩], [⟨"s", ["a", "b"]⟩], true⟩]
        MergeType.mfbSad =
      Except.error Err.filterConsistency := by
  refine ⟨by decide, by decide, by decide⟩

/-- The donor-splicing loop aborts with the missing-group assert as soon as a
donor lacks a track placemark, provided the cursor exists. -/
theorem chainDonors_missing : ∀ (others : List Tree),
    (∃ d ∈ others, d.groups = []) →
    chainDonors true others = Except.error Err.missingTrackGroup
  | [], hbad => by simp at hbad
  | t :: ts, hbad => by
    rcases hbad with ⟨d, hd, hdg⟩
    rcases List.mem_cons.mp hd with rfl | hmem
    · simp [chainDonors, find_first_track_placemark, hdg]
    · cases hg : t.groups with
      | nil => simp [chainDonors, find_first_track_placemark, hg]
      | cons g rest =>
        simp [chainDonors, find_first_track_placemark, hg,
          chainDonors_missing ts ⟨d, hmem, hdg⟩]

/-- Counterexample to C7 as stated: a donor (the second one) lacks the
expected point-group, yet the merge does not fail with
`MissingTrackGroupError` — the base itself has no track placemark, the first
donor does, and `None.addnext` raises `AttributeError` before the second donor
is ever examined. -/
theorem claim_C7_counterexample :
    (∃ d ∈ [(⟨[], [⟨[0], [⟨0, 0, 0⟩]⟩], [], true⟩ : Tree), ⟨[], [], [], true⟩],
      Tree.groups d = []) ∧
    google_earth_merge
        [⟨[], [], [], true⟩, ⟨[], [⟨[0], [⟨0, 0, 0⟩]⟩], [], true⟩, ⟨[], [], [], true⟩] ≠
      Except.error Err.missingTrackGroup := by
  refine ⟨by decide, by decide⟩

/-- C7 (amended): provided the base track has a point-group, any input list in
which some donor lacks the expected point-group makes the segmented merge fail
with `MissingTrackGroupError`, producing no output. -/
theorem claim_C7_donor_missing_group (base : Tree) (others : List Tree)
    (hbase : base.groups ≠ [])
    (hbad : ∃ d ∈ others, d.groups = []) :
    google_earth_merge (base :: others) = Except.error Err.missingTrackGroup := by
  have hb : (!base.groups.isEmpty) = true := by
    cases hg : base.groups with
    | nil => exact absurd hg hbase
    | cons g rest => rfl
  simp [google_earth_merge, hb, chainDonors_missing others hbad]

/-- Witness for C7 (amended) at a concrete pair: a one-point base and a
group-less donor. -/
theorem claim_C7_donor_missing_group_witness :
    (Tree.groups ⟨[], [⟨[0], [⟨0, 0, 0⟩]⟩], [], true⟩ ≠ []) ∧
    google_earth_merge [⟨[], [⟨[0], [⟨0, 0, 0⟩]⟩], [], true⟩, ⟨[], [], [], true⟩] =
      Except.error Err.missingTrackGroup :=
  ⟨by decide,
    claim_C7_donor_missing_group ⟨[], [⟨[0], [⟨0, 0, 0⟩]⟩], [], true⟩ [⟨[], [], [], true⟩]
      (by decide) ⟨⟨[], [], [], true⟩, by decide⟩⟩

/-- Inserting into a list keeps, for each key value, the elements with that
key in order, with the inserted element in front of the equal-key block when
its key matches. -/
theorem filter_orderedInsert (k : Nat) (a : Tree) : ∀ (l : List Tree),
    (List.orderedInsert keyLe a l).filter (fun t => decide (startKey t = k))
      = if startKey a = k
        then a :: l.filter (fun t => decide (startKey t = k))
        else l.filter (fun t => decide (startKey t = k))
  | [] => by
    by_cases hk : startKey a = k <;> simp [List.filter_cons, hk]
  | b :: l => by
    have IH := filter_orderedInsert k a l
    by_cases hab : keyLe a b
    · rw [List.orderedInsert_of_le _ _ hab]
      by_cases hk : startKey a = k <;> simp [List.filter_cons, hk]
    · rw [List.orderedInsert, if_neg hab]
      by_cases hk : startKey a = k
      · have hbk : ¬ startKey b = k := by
          have hlt : startKey b < startKey a := Nat.lt_of_not_le hab
          omega
        simp [List.filter_cons, hbk, IH, hk]
      · by_cases hbk : startKey b = k <;> simp [List.filter_cons, hbk, IH, hk]

/-- Stability of the modelled sort: for every key value, sorting preserves the
original relative order of the trees with that key. -/
theorem insertionSort_filter_key (k : Nat) : ∀ (l : List Tree),
    (List.insertionSort keyLe l).filter (fun t => decide (startKey t = k))
      = l.filter (fun t => decide (startKey t = k))
  | [] => rfl
  | a :: l => by
    have IH := insertionSort_filter_key k l
    rw [List.insertionSort, filter_orderedInsert, IH]
    by_cases hk : startKey a = k <;> simp [List.filter_cons, hk]

/-- With in-range indices, the selection loop returns the indexed elements. -/
theorem mapExcept_select (ts : List Tree) : ∀ (idxs : List Nat),
    (∀ i ∈ idxs, i < ts.length) →
    mapExcept (fun i => if h : i < ts.length then Except.ok ts[i] else Except.error Err.indexError)
        idxs
      = Except.ok (idxs.map (fun i => ts.getD i default))
  | [], _ => rfl
  | i :: is, h => by
    have hi := h i (List.mem_cons_self _ _)
    have IH := mapExcept_select ts is (fun j hj => h j (List.mem_cons_of_mem _ hj))
    simp only [mapExcept, dif_pos hi, IH, List.map_cons]
    rw [List.getD_eq_getElem ts default hi]

/-- A track with at least one point has a derivable start time. -/
theorem startTime_isSome (t : Tree) (h : t.allWhens ≠ []) :
    (get_track_start_time t).isSome = true := by
  unfold get_track_start_time
  cases hw : t.allWhens with
  | nil => exact absurd hw h
  | cons a l => rfl

/-- C5: `sort_and_select` sorts ascending by first-point timestamp with a
stable sort (equal keys keep their original relative order), and a non-empty
selection list is applied to the already-sorted sequence, possibly reordering
and/or reducing it. -/
theorem claim_C5_sort_and_select (indices : List Nat) (trees : List Tree)
    (hne : trees ≠ [])
    (hpts : ∀ t ∈ trees, t.allWhens ≠ [])
    (hidx : ∀ i ∈ indices, i < trees.length) :
    List.Sorted keyLe (List.insertionSort keyLe trees) ∧
    (List.insertionSort keyLe trees).Perm trees ∧
    (∀ k : Nat, (List.insertionSort keyLe trees).filter (fun t => decide (startKey t = k))
        = trees.filter (fun t => decide (startKey t = k))) ∧
    (indices = [] → sort_and_select indices trees = Except.ok (List.insertionSort keyLe trees)) ∧
    (indices ≠ [] → sort_and_select indices trees =
        Except.ok (indices.map (fun i => (List.insertionSort keyLe trees).getD i default))) := by
  have hall : trees.all (fun t => (get_track_start_time t).isSome) = true := by
    rw [List.all_eq_true]
    intro t ht
    exact startTime_isSome t (hpts t ht)
  have hlen : (List.insertionSort keyLe trees).length = trees.length :=
    (List.perm_insertionSort keyLe trees).length_eq
  have hts_ne : List.insertionSort keyLe trees ≠ [] := by
    intro hnil
    apply hne
    have : trees.length = 0 := by rw [← hlen, hnil]; rfl
    exact List.length_eq_zero.mp this
  refine ⟨List.sorted_insertionSort keyLe trees, List.perm_insertionSort keyLe trees,
    fun k => insertionSort_filter_key k trees, ?_, ?_⟩
  · intro hempty
    subst hempty
    simp only [sort_and_select, hall, if_true, List.isEmpty_nil, if_true]
    rw [if_neg]
    simp [List.isEmpty_iff, hts_ne]
  · intro hnonempty
    have hie : indices.isEmpty = false := by
      cases indices with
      | nil => exact absurd rfl hnonempty
      | cons i is => rfl
    have hsel := mapExcept_select (List.insertionSort keyLe trees) indices
      (fun i hi => by rw [hlen]; exact hidx i hi)
    simp only [sort_and_select, hall, if_true, hie, Bool.false_eq_true, if_false, hsel]
    rw [if_neg]
    simp only [List.isEmpty_iff, List.map_eq_nil_iff]
    intro hmap
    exact hnonempty hmap

/-- Witness for C5 at the spec's example: start times [20, 10, 30] sort to
[10, 20, 30], and selection [2, 0] over the sorted sequence gives the tracks
starting at 30 and 10. -/
theorem claim_C5_sort_and_select_witness :
    (([⟨['B'], [⟨[20], [⟨0, 0, 0⟩]⟩], [], true⟩,
       ⟨['A'], [⟨[10], [⟨0, 0, 0⟩]⟩], [], true⟩,
       ⟨['C'], [⟨[30], [⟨0, 0, 0⟩]⟩], [], true⟩] : List Tree) ≠ []) ∧
    sort_and_select []
        [⟨['B'], [⟨[20], [⟨0, 0, 0⟩]⟩], [], true⟩,
         ⟨['A'], [⟨[10], [⟨0, 0, 0⟩]⟩], [], true⟩,
         ⟨['C'], [⟨[30], [⟨0, 0, 0⟩]⟩], [], true⟩] =
      Except.ok
        [⟨['A'], [⟨[10], [⟨0, 0, 0⟩]⟩], [], true⟩,
         ⟨['B'], [⟨[20], [⟨0, 0, 0⟩]⟩], [], true⟩,
         ⟨['C'], [⟨[30], [⟨0, 0, 0⟩]⟩], [], true⟩] ∧
    sort_and_select [2, 0]
        [⟨['B'], [⟨[20], [⟨0, 0, 0⟩]⟩], [], true⟩,
         ⟨['A'], [⟨[10], [⟨0, 0, 0⟩]⟩], [], true⟩,
         ⟨['C'], [⟨[30], [⟨0, 0, 0⟩]⟩], [], true⟩] =
      Except.ok
        [⟨['C'], [⟨[30], [⟨0, 0, 0⟩]⟩], [], true⟩,
         ⟨['A'], [⟨[10], [⟨0, 0, 0⟩]⟩], [], true⟩] := by
  have h1 := claim_C5_sort_and_select []
    [⟨['B'], [⟨[20], [⟨0, 0, 0⟩]⟩], [], true⟩,
     ⟨['A'], [⟨[10], [⟨0, 0, 0⟩]⟩], [], true⟩,
     ⟨['C'], [⟨[30], [⟨0, 0, 0⟩]⟩], [], true⟩]
    (by decide) (by decide) (by decide)
  have h2 := claim_C5_sort_and_select [2, 0]
    [⟨['B'], [⟨[20], [⟨0, 0, 0⟩]⟩], [], true⟩,
     ⟨['A'], [⟨[10], [⟨0, 0, 0⟩]⟩], [], true⟩,
     ⟨['C'], [⟨[30], [⟨0, 0, 0⟩]⟩], [], true⟩]
    (by decide) (by decide) (by decide)
  refine ⟨by decide, ?_, ?_⟩
  · rw [h1.2.2.2.1 rfl]
    decide
  · rw [h2.2.2.2.2 (by decide)]
    decide

/-- The donor loop of the series append succeeds and adds one value per donor
point whenever every donor carries the series with a point-aligned length. -/
theorem foldlExcept_sadAppend (name : String) : ∀ (others : List Tree) (acc : List String),
    (∀ t ∈ others, ∃ s', find_sad t name = some s' ∧ s'.values.length = t.allWhens.length) →
    ∃ vals,
      foldlExcept
          (fun acc t =>
            match find_sad t name with
            | none => Except.error Err.missingSeries
            | some s => Except.ok (acc ++ s.values))
          acc others = Except.ok vals ∧
      vals.length = acc.length + (others.map (fun t => t.allWhens.length)).sum
  | [], acc, _ => ⟨acc, rfl, by simp⟩
  | t :: ts, acc, h => by
    obtain ⟨s', hfind, hslen⟩ := h t (List.mem_cons_self _ _)
    obtain ⟨vals, hrec, hvlen⟩ :=
      foldlExcept_sadAppend name ts (acc ++ s'.values)
        (fun u hu => h u (List.mem_cons_of_mem _ hu))
    refine ⟨vals, ?_, ?_⟩
    · simp only [foldlExcept, hfind]
      exact hrec
    · rw [hvlen]
      simp only [List.length_append, List.map_cons, List.sum_cons, hslen]
      omega

/-- One series merge succeeds with exactly `numRows` values when the donors
supply point-aligned same-named series summing up to `numRows`. -/
theorem mergeSadOne_ok (others : List Tree) (numRows : Nat) (sad : Sad)
    (hfind : ∀ t ∈ others, ∃ s', find_sad t sad.name = some s' ∧
        s'.values.length = t.allWhens.length)
    (hlen : sad.values.length + (others.map (fun t => t.allWhens.length)).sum = numRows) :
    ∃ vals, mergeSadOne others numRows sad = Except.ok ⟨sad.name, vals⟩ ∧
      vals.length = numRows := by
  obtain ⟨vals, hfold, hvlen⟩ := foldlExcept_sadAppend sad.name others sad.values hfind
  refine ⟨vals, ?_, by omega⟩
  simp only [mergeSadOne, hfold]
  rw [if_pos (by omega)]

/-- A loop whose body succeeds on every element succeeds, and every produced
element satisfies what the body guarantees. -/
theorem mapExcept_ok_of_forall {β : Type} {P : β → Prop} : ∀ (l : List α) (f : α → Except Err β),
    (∀ a ∈ l, ∃ b, f a = Except.ok b ∧ P b) →
    ∃ bs, mapExcept f l = Except.ok bs ∧ ∀ b ∈ bs, P b
  | [], _, _ => ⟨[], rfl, by simp⟩
  | a :: as, f, h => by
    obtain ⟨b, hb, hPb⟩ := h a (List.mem_cons_self _ _)
    obtain ⟨bs, hbs, hPbs⟩ :=
      mapExcept_ok_of_forall as f (fun x hx => h x (List.mem_cons_of_mem _ hx))
    refine ⟨b :: bs, ?_, ?_⟩
    · simp only [mapExcept, hb, hbs]
    · intro x hx
      rcases List.mem_cons.mp hx with rfl | hx
      · exact hPb
      · exact hPbs x hx

/-- `merge_simplearraydata` succeeds and re-establishes ARR-EQ on the series
whenever every donor carries every base series with a point-aligned length and
the lengths sum to the merged point count. -/
theorem merge_simplearraydata_ok (base : Tree) (others : List Tree)
    (hsads : ∀ s ∈ base.sads,
      s.values.length + (others.map (fun t => t.allWhens.length)).sum = base.allWhens.length)
    (hfind : ∀ t ∈ others, ∀ s ∈ base.sads, ∃ s', find_sad t s.name = some s' ∧
        s'.values.length = t.allWhens.length) :
    ∃ sads', merge_simplearraydata base others = Except.ok { base with sads := sads' } ∧
      ∀ s' ∈ sads', s'.values.length = base.allWhens.length := by
  obtain ⟨sads', hmap, hP⟩ :=
    mapExcept_ok_of_forall (P := fun s' : Sad => s'.values.length = base.allWhens.length)
      base.sads (mergeSadOne others base.allWhens.length)
      (fun s hs => by
        obtain ⟨vals, hok, hvlen⟩ :=
          mergeSadOne_ok others base.allWhens.length s
            (fun t ht => hfind t ht s hs) (hsads s hs)
        exact ⟨⟨s.name, vals⟩, hok, hvlen⟩)
  refine ⟨sads', ?_, hP⟩
  simp only [merge_simplearraydata, hmap]

/-- C6: flat-strategy point-count conservation.  On well-formed inputs (a
single base point-group, aligned arrays, non-empty base, donors carrying every
base series point-aligned, no invalid point, schema present) the flat merge
appends each donor's timestamp–coordinate pairs in original per-point order to
the base group; without series merging the result is exactly the concatenated
track with all named series discarded, and in both modes the merged point
count is the sum of all inputs' point counts; with series merging every
retained named series has that same length. -/
theorem claim_C6_flat_merge (base : Tree) (others : List Tree) (g0 : PointGroup)
    (hg : base.groups = [g0])
    (hwf : ∀ t ∈ base :: others, t.allWhens.length = t.allCoords.length)
    (hne : base.allCoords.length ≠ 0)
    (hschema : base.hasSchemaData = true)
    (hsadlen : ∀ s ∈ base.sads, s.values.length = base.allWhens.length)
    (hfind : ∀ t ∈ others, ∀ s ∈ base.sads, ∃ s', find_sad t s.name = some s' ∧
        s'.values.length = t.allWhens.length)
    (hpos : ∀ t ∈ base :: others, ∀ c ∈ t.allCoords, ¬ c.alt < 0) :
    (myflightbook_merge false (base :: others) =
      Except.ok { base with
        groups := [⟨g0.whens ++ (others.map Tree.allWhens).flatten,
                    g0.coords ++ (others.map Tree.allCoords).flatten⟩],
        sads := [], hasSchemaData := false }) ∧
    (g0.coords ++ (others.map Tree.allCoords).flatten).length =
      ((base :: others).map (fun t => t.allCoords.length)).sum ∧
    (∃ m, myflightbook_merge true (base :: others) = Except.ok m ∧
      m.allCoords.length = ((base :: others).map (fun t => t.allCoords.length)).sum ∧
      ∀ s ∈ m.sads, s.values.length = m.allCoords.length) := by
  have hbw : base.allWhens = g0.whens := by
    simp [Tree.allWhens, hg]
  have hbc : base.allCoords = g0.coords := by
    simp [Tree.allCoords, hg]
  have hpairsW : (others.map (fun t => t.allWhens.zip t.allCoords)).map
        (fun l => l.map Prod.fst) = others.map Tree.allWhens := by
    rw [List.map_map]
    apply List.map_eq_map_iff.mpr
    intro t ht
    simp only [Function.comp]
    exact List.map_fst_zip _ _ (le_of_eq (hwf t (List.mem_cons_of_mem _ ht)))
  have hpairsC : (others.map (fun t => t.allWhens.zip t.allCoords)).map
        (fun l => l.map Prod.snd) = others.map Tree.allCoords := by
    rw [List.map_map]
    apply List.map_eq_map_iff.mpr
    intro t ht
    simp only [Function.comp]
    exact List.map_snd_zip _ _ (ge_of_eq (hwf t (List.mem_cons_of_mem _ ht)))
  have hWC_sum : (others.map (fun t => t.allWhens.length)).sum
      = (others.map (fun t => t.allCoords.length)).sum := by
    refine congrArg List.sum (List.map_eq_map_iff.mpr ?_)
    intro t ht
    exact hwf t (List.mem_cons_of_mem _ ht)
  have hflatW : ((others.map Tree.allWhens).flatten).length
      = (others.map (fun t => t.allWhens.length)).sum := by
    rw [List.length_flatten, List.map_map]
    rfl
  have hflatC : ((others.map Tree.allCoords).flatten).length
      = (others.map (fun t => t.allCoords.length)).sum := by
    rw [List.length_flatten, List.map_map]
    rfl
  have htot : ((base :: others).map (fun t => t.allCoords.length)).sum
      = base.allCoords.length + (others.map (fun t => t.allCoords.length)).sum := by
    simp
  have hnum_ne : ¬ ((base :: others).map (fun t => t.allCoords.length)).sum = 0 := by
    omega
  have hcount : (g0.coords ++ (others.map Tree.allCoords).flatten).length
      = ((base :: others).map (fun t => t.allCoords.length)).sum := by
    rw [List.length_append, hflatC, htot, hbc]
  have hpremerge : ∀ merge_sad : Bool,
      myflightbook_merge merge_sad (base :: others) =
        if merge_sad then
          match merge_simplearraydata
              { base with groups := [⟨g0.whens ++ (others.map Tree.allWhens).flatten,
                                      g0.coords ++ (others.map Tree.allCoords).flatten⟩] }
              others with
          | Except.error e => Except.error e
          | Except.ok m => filter_bad_items_from_track m
        else
          if base.hasSchemaData then
            Except.ok { base with
              groups := [⟨g0.whens ++ (others.map Tree.allWhens).flatten,
                          g0.coords ++ (others.map Tree.allCoords).flatten⟩],
              sads := [], hasSchemaData := false }
          else Except.error Err.attributeError := by
    intro merge_sad
    simp only [myflightbook_merge, hg, hpairsW, hpairsC]
    rw [if_neg hnum_ne]
    have hcnt' : (Tree.allCoords { base with
        groups := [⟨g0.whens ++ (others.map Tree.allWhens).flatten,
                    g0.coords ++ (others.map Tree.allCoords).flatten⟩] }).length
        = ((base :: others).map (fun t => t.allCoords.length)).sum := by
      simpa [Tree.allCoords] using hcount
    rw [if_pos hcnt']
  have hmergedW : (Tree.allWhens { base with
      groups := [⟨g0.whens ++ (others.map Tree.allWhens).flatten,
                  g0.coords ++ (others.map Tree.allCoords).flatten⟩] })
      = g0.whens ++ (others.map Tree.allWhens).flatten := by
    simp [Tree.allWhens]
  have hmergedC : (Tree.allCoords { base with
      groups := [⟨g0.whens ++ (others.map Tree.allWhens).flatten,
                  g0.coords ++ (others.map Tree.allCoords).flatten⟩] })
      = g0.coords ++ (others.map Tree.allCoords).flatten := by
    simp [Tree.allCoords]
  refine ⟨?_, hcount, ?_⟩
  · simp [hpremerge false, hschema]
  · -- series-merging mode
    obtain ⟨sads', hmerge, hslen⟩ :=
      merge_simplearraydata_ok
        { base with groups := [⟨g0.whens ++ (others.map Tree.allWhens).flatten,
                                g0.coords ++ (others.map Tree.allCoords).flatten⟩] }
        others
        (by
          intro s hs
          have h1 := hsadlen s hs
          rw [hbw] at h1
          rw [hmergedW, List.length_append, hflatW]
          omega)
        (by
          intro t ht s hs
          exact hfind t ht s hs)
    have hm0W : (Tree.allWhens { base with
        groups := [⟨g0.whens ++ (others.map Tree.allWhens).flatten,
                    g0.coords ++ (others.map Tree.allCoords).flatten⟩], sads := sads' })
        = g0.whens ++ (others.map Tree.allWhens).flatten := by
      simp [Tree.allWhens]
    have hm0C : (Tree.allCoords { base with
        groups := [⟨g0.whens ++ (others.map Tree.allWhens).flatten,
                    g0.coords ++ (others.map Tree.allCoords).flatten⟩], sads := sads' })
        = g0.coords ++ (others.map Tree.allCoords).flatten := by
      simp [Tree.allCoords]
    have hfilter := filter_noop
      { base with groups := [⟨g0.whens ++ (others.map Tree.allWhens).flatten,
                              g0.coords ++ (others.map Tree.allCoords).flatten⟩], sads := sads' }
      (by
        rw [hm0W, hm0C, List.length_append, List.length_append, hflatW, hflatC, hWC_sum]
        have := hwf base (List.mem_cons_self _ _)
        rw [hbw, hbc] at this
        omega)
      (by
        intro s hs
        rw [hm0W]
        have := hslen s hs
        rw [hmergedW] at this
        exact this)
      (by
        intro c hc
        rw [hm0C] at hc
        rcases List.mem_append.mp hc with hcl | hcr
        · exact hpos base (List.mem_cons_self _ _) c (by rw [hbc]; exact hcl)
        · rcases List.mem_flatten.mp hcr with ⟨l, hl, hcl⟩
          rcases List.mem_map.mp hl with ⟨t, ht, rfl⟩
          exact hpos t (List.mem_cons_of_mem _ ht) c hcl)
    refine ⟨{ base with
        groups := [⟨g0.whens ++ (others.map Tree.allWhens).flatten,
                    g0.coords ++ (others.map Tree.allCoords).flatten⟩], sads := sads' },
      ?_, ?_, ?_⟩
    · rw [hpremerge true, if_pos rfl]
      simp only [hmerge]
      exact hfilter
    · rw [hm0C]
      exact hcount
    · intro s hs
      rw [hm0C, hcount]
      have := hslen s hs
      rw [hmergedW, List.length_append, hflatW] at this
      rw [this]
      have hb := hwf base (List.mem_cons_self _ _)
      rw [hbw, hbc] at hb
      rw [htot, hbc, hWC_sum]
      omega

/-- Witness for C6 at point counts [5, 3, 4]: the merged base has 12 points
and, with series merging, the retained series has 12 values. -/
theorem claim_C6_flat_merge_witness :
    (∃ m, myflightbook_merge true
        [⟨[], [⟨[0, 1, 2, 3, 4],
               [⟨0, 0, 1⟩, ⟨0, 0, 1⟩, ⟨0, 0, 1⟩, ⟨0, 0, 1⟩, ⟨0, 0, 1⟩]⟩],
           [⟨"speed", ["a", "b", "c", "d", "e"]⟩], true⟩,
         ⟨[], [⟨[10, 11, 12], [⟨0, 0, 1⟩, ⟨0, 0, 1⟩, ⟨0, 0, 1⟩]⟩],
           [⟨"speed", ["f", "g", "h"]⟩], true⟩,
         ⟨[], [⟨[20, 21, 22, 23], [⟨0, 0, 1⟩, ⟨0, 0, 1⟩, ⟨0, 0, 1⟩, ⟨0, 0, 1⟩]⟩],
           [⟨"speed", ["i", "j", "k", "l"]⟩], true⟩] = Except.ok m ∧
      m.allCoords.length =
        (([⟨[], [⟨[0, 1, 2, 3, 4],
                 [⟨0, 0, 1⟩, ⟨0, 0, 1⟩, ⟨0, 0, 1⟩, ⟨0, 0, 1⟩, ⟨0, 0, 1⟩]⟩],
             [⟨"speed", ["a", "b", "c", "d", "e"]⟩], true⟩,
           ⟨[], [⟨[10, 11, 12], [⟨0, 0, 1⟩, ⟨0, 0, 1⟩, ⟨0, 0, 1⟩]⟩],
             [⟨"speed", ["f", "g", "h"]⟩], true⟩,
           ⟨[], [⟨[20, 21, 22, 23], [⟨0, 0, 1⟩, ⟨0, 0, 1⟩, ⟨0, 0, 1⟩, ⟨0, 0, 1⟩]⟩],
             [⟨"speed", ["i", "j", "k", "l"]⟩], true⟩] : List Tree).map
          (fun t => t.allCoords.length)).sum ∧
      ∀ s ∈ m.sads, s.values.length = m.allCoords.length) ∧
    (([⟨[], [⟨[0, 1, 2, 3, 4],
             [⟨0, 0, 1⟩, ⟨0, 0, 1⟩, ⟨0, 0, 1⟩, ⟨0, 0, 1⟩, ⟨0, 0, 1⟩]⟩],
         [⟨"speed", ["a", "b", "c", "d", "e"]⟩], true⟩,
       ⟨[], [⟨[10, 11, 12], [⟨0, 0, 1⟩, ⟨0, 0, 1⟩, ⟨0, 0, 1⟩]⟩],
         [⟨"speed", ["f", "g", "h"]⟩], true⟩,
       ⟨[], [⟨[20, 21, 22, 23], [⟨0, 0, 1⟩, ⟨0, 0, 1⟩, ⟨0, 0, 1⟩, ⟨0, 0, 1⟩]⟩],
         [⟨"speed", ["i", "j", "k", "l"]⟩], true⟩] : List Tree).map
      (fun t => t.allCoords.length)).sum = 12 :=
  ⟨(claim_C6_flat_merge
      ⟨[], [⟨[0, 1, 2, 3, 4],
            [⟨0, 0, 1⟩, ⟨0, 0, 1⟩, ⟨0, 0, 1⟩, ⟨0, 0, 1⟩, ⟨0, 0, 1⟩]⟩],
        [⟨"speed", ["a", "b", "c", "d", "e"]⟩], true⟩
      [⟨[], [⟨[10, 11, 12], [⟨0, 0, 1⟩, ⟨0, 0, 1⟩, ⟨0, 0, 1⟩]⟩],
         [⟨"speed", ["f", "g", "h"]⟩], true⟩,
       ⟨[], [⟨[20, 21, 22, 23], [⟨0, 0, 1⟩, ⟨0, 0, 1⟩, ⟨0, 0, 1⟩, ⟨0, 0, 1⟩]⟩],
         [⟨"speed", ["i", "j", "k", "l"]⟩], true⟩]
      ⟨[0, 1, 2, 3, 4], [⟨0, 0, 1⟩, ⟨0, 0, 1⟩, ⟨0, 0, 1⟩, ⟨0, 0, 1⟩, ⟨0, 0, 1⟩]⟩
      (by decide) (by decide) (by decide) (by decide) (by decide)
      (by
        intro t ht s hs
        fin_cases ht <;> fin_cases hs
        · exact ⟨⟨"speed", ["f", "g", "h"]⟩, by decide, by decide⟩
        · exact ⟨⟨"speed", ["i", "j", "k", "l"]⟩, by decide, by decide⟩)
      (by decide)).2.2,
    by decide⟩

end FF
